import Mathlib

set_option synthInstance.maxSize 1000
set_option maxRecDepth 4000

/-!
Shallow embedding of `git-contains` (src/main.rs) and verification of the
frozen claims about it.

The program visualizes which tracked branches contain which logical changes.
We embed its core pipeline: branch-selector compilation and resolution
(`main`, lines 279-374), membership building via pruned traversal
(lines 376-411), change grouping (lines 413-448), branch column ordering
(lines 450-467) and the printer (`Printer`, `print_commit`).

External collaborators (libgit2 repository access, the revwalk, the trigger
process) are modelled at their interfaces: the repository is a function
`CommitId → Option Commit`, the revwalk is a function parameter, and process
outputs are explicit inputs.  `SystemTime::elapsed().unwrap()` is modelled by
an `Option Nat` that is `none` exactly when the timestamp lies in the future
(the `unwrap` panic); `?`-propagated errors are modelled by `Except RunErr`.
-/

namespace GitContains

/-- Branch names; Rust `Rc<String>` compares as the underlying string. -/
abbrev Name := String

/-- Commit identifiers (`git2::Oid`), totally ordered for `BTreeMap` iteration. -/
abbrev CommitId := Nat

/-- The data of one commit as read through the repository interface:
committer timestamp (seconds), parent count, author signature and message.
`authorName`/`authorEmail` are `none` when the signature field is not valid
UTF-8 (`Signature::name()`/`email()` return `Option<&str>`). -/
structure Commit where
  committerTime : Nat
  parentCount : Nat
  authorName : Option String
  authorEmail : Option String
  message : List Char
deriving DecidableEq, Repr

/-- Abnormal terminations of the run: `panicStop` models a Rust panic
(`unwrap`/`expect`), `fatalErr` models an error propagated with `?` out of
`main`. -/
inductive RunErr where
  | panicStop
  | fatalErr
deriving DecidableEq, Repr

instance {ε α : Type} [DecidableEq ε] [DecidableEq α] :
    DecidableEq (Except ε α) := fun x y =>
  match x, y with
  | .error e, .error f =>
    if h : e = f then isTrue (by rw [h])
    else isFalse (fun hh => by cases hh; exact h rfl)
  | .error _, .ok _ => isFalse (fun hh => Except.noConfusion hh)
  | .ok _, .error _ => isFalse (fun hh => Except.noConfusion hh)
  | .ok a, .ok b =>
    if h : a = b then isTrue (by rw [h])
    else isFalse (fun hh => by cases hh; exact h rfl)

/-- Model of `SystemTime::elapsed()` at current time `now` for a timestamp
`t`: `Err` (here `none`, which the caller `unwrap`s into a panic) exactly when
`t` is later than `now`, otherwise the elapsed duration in seconds. -/
def elapsedSecs (now t : Nat) : Option Nat :=
  if t ≤ now then some (now - t) else none

/-- Reference-level age check on a branch head (main.rs lines 377-384):
`find_commit` failure falls through to the traversal (`some false`); a found
commit compares `elapsed().unwrap()` against `ref_max_age`, panicking
(`none`) on a future timestamp. `some true` means: skip this branch. -/
def headTooOld (repo : CommitId → Option Commit) (now refMaxAge : Nat)
    (oid : CommitId) : Option Bool :=
  match repo oid with
  | some c => (elapsedSecs now c.committerTime).map (fun e => refMaxAge < e)
  | none => some false

/-- The revwalk hide callback (main.rs lines 389-399): hide (`some true`) a
commit whose age exceeds `commit_max_age`; `find_commit` failure yields
`some false`; a future timestamp panics (`none`). -/
def hideCallback (repo : CommitId → Option Commit) (now commitMaxAge : Nat)
    (cb : CommitId) : Option Bool :=
  match repo cb with
  | some c => (elapsedSecs now c.committerTime).map (fun e => commitMaxAge < e)
  | none => some false

/-- The grouper's defensive age re-check (main.rs lines 426-431), performed on
an already-fetched commit: `some true` means the commit is stale and skipped;
`none` is the `unwrap` panic on a future timestamp. -/
def groupAgeCheck (now commitMaxAge : Nat) (c : Commit) : Option Bool :=
  (elapsedSecs now c.committerTime).map (fun e => commitMaxAge < e)

/-- Rust `str::contains`: substring containment, modelled on character
lists. -/
def strContains (hay needle : List Char) : Bool :=
  decide (needle <:+: hay)

/-- `sig_matches` (main.rs lines 58-66): with a filter string the signature
matches when the filter is a substring of the author name or of the author
email (a `None` name or email contributes `false`); with no filter every
signature matches. -/
def sig_matches (authorName authorEmail : Option String)
    (arg : Option String) : Bool :=
  match arg with
  | some s =>
      (authorName.map (fun n => strContains n.toList s.toList)).getD false ||
      (authorEmail.map (fun n => strContains n.toList s.toList)).getD false
  | none => true

/-- Splitting a character list at newline characters; every `'\n'` ends a
line, so `splitLines cs` always returns one more segment than the number of
newlines in `cs`. -/
def splitLines : List Char → List (List Char)
  | [] => [[]]
  | '\n' :: rest => [] :: splitLines rest
  | c :: rest =>
    match splitLines rest with
    | [] => [[c]]
    | l :: ls => (c :: l) :: ls

/-- Rust `str::lines()` on a commit message: the empty string yields no lines;
otherwise the newline-separated segments.  (Rust drops a final empty segment
after a trailing newline and strips `'\r'`; neither difference is observable
through `firstLine`, the only consumer here, for messages without `'\r'`.) -/
def rustLines (s : List Char) : List (List Char) :=
  if s = [] then [] else splitLines s

/-- The grouping key taken by the `for msg in ... lines()` loop with an
immediate `break` (main.rs lines 433-440): the first line of the message, or
nothing for an empty message (then the commit joins no group). -/
def firstLine (s : List Char) : Option (List Char) :=
  (rustLines s).head?

/-! ### Glob patterns (globset fragment)

The program compiles each non-trigger selector with
`globset::Glob::new(..)?.compile_matcher()`.  We embed the fragment of the
glob language the tool relies on: literal characters, `*` (any sequence —
globset's default does not treat `/` as special), `?` (any single character),
backslash escapes, and `[...]`/`[!...]` character classes.  An unterminated
class or a trailing backslash is a compilation error, which `?`-propagates
out of `main`. -/

/-- One compiled glob token. -/
inductive GTok where
  | lit (c : Char)
  | star
  | qmark
  | cls (neg : Bool) (cs : List Char)
deriving DecidableEq, Repr

/-- Scan a character class up to the closing `']'`; `none` when the class is
never closed (malformed pattern). -/
def scanClass : List Char → Option (List Char × List Char)
  | [] => none
  | ']' :: rest => some ([], rest)
  | c :: rest => (scanClass rest).map (fun p => (c :: p.1, p.2))

/-- Fuelled glob compiler body: every step consumes at least one character
and one fuel unit, so fuel equal to the pattern length (as supplied by
`compileGlob`) never runs out; the fuel only makes the recursion structural.
A class is scanned with `scanClass`; an unterminated class or a trailing
backslash is a compilation error (`none`). -/
def compileGlobF : Nat → List Char → Option (List GTok)
  | _, [] => some []
  | 0, _ :: _ => none
  | fuel + 1, '*' :: rest => (compileGlobF fuel rest).map (GTok.star :: ·)
  | fuel + 1, '?' :: rest => (compileGlobF fuel rest).map (GTok.qmark :: ·)
  | fuel + 1, '\\' :: c :: rest => (compileGlobF fuel rest).map (GTok.lit c :: ·)
  | _ + 1, ['\\'] => none
  | fuel + 1, '[' :: rest =>
    (match scanClass rest with
     | none => none
     | some ('!' :: cs, rest2) =>
       (compileGlobF fuel rest2).map (GTok.cls true cs :: ·)
     | some (cs, rest2) =>
       (compileGlobF fuel rest2).map (GTok.cls false cs :: ·))
  | fuel + 1, c :: rest => (compileGlobF fuel rest).map (GTok.lit c :: ·)

/-- Compile a glob pattern into tokens (`globset::Glob::new`); `none` models
the compilation error for a malformed pattern. -/
def compileGlob (l : List Char) : Option (List GTok) :=
  compileGlobF l.length l

/-- Whether a single non-star token matches one character. -/
def gtokMatch (t : GTok) (c : Char) : Bool :=
  match t with
  | .lit d => c = d
  | .qmark => true
  | .cls neg cs => if neg then !(cs.contains c) else cs.contains c
  | .star => false

/-- Star matching: try the continuation on every suffix of the input —
`*` consumes any (possibly empty) prefix of characters. -/
def gmatchStar (k : List Char → Bool) : List Char → Bool
  | [] => k []
  | d :: ds => k (d :: ds) || gmatchStar k ds

/-- Glob matching of a token list against a character list; `*` matches any
(possibly empty) sequence of characters. -/
def gmatch : List GTok → List Char → Bool
  | [], [] => true
  | [], _ :: _ => false
  | .star :: ps, ds => gmatchStar (gmatch ps) ds
  | p :: ps, d :: ds => gtokMatch p d && gmatch ps ds
  | _ :: _, [] => false

/-! ### Branch selectors (main.rs lines 267-346)

Each CLI `--branch` argument is parsed at its input-list position `idx`: a
leading `!` sets `show_if_empty`; an argument containing `:` is a trigger
(`RefScript`) directive; anything else is a glob pattern, whose compilation
failure aborts the run. -/

/-- `BranchKind` from main.rs lines 269-272. -/
inductive BranchKind where
  | glob (toks : List GTok)
  | refScript (directive : List Char)
deriving DecidableEq, Repr

/-- `BranchInfo` from main.rs lines 274-277. -/
structure BranchInfo where
  show_if_empty : Bool
  kind : BranchKind
deriving DecidableEq, Repr

/-- Parse and compile one selector argument (main.rs lines 279-298). -/
def compileSelector (g : List Char) : Except RunErr BranchInfo :=
  let stripped := match g with
    | '!' :: rest => (true, rest)
    | _ => (false, g)
  if stripped.2.contains ':' then
    Except.ok ⟨stripped.1, BranchKind.refScript stripped.2⟩
  else
    match compileGlob stripped.2 with
    | some toks => Except.ok ⟨stripped.1, BranchKind.glob toks⟩
    | none => Except.error RunErr.fatalErr

/-- Compile the whole selector list, pairing each selector with its
input-list position (`for (idx, glob) in args.branches.iter().enumerate()`);
the first malformed glob aborts the whole resolution. -/
def compileSelectors (args : List (List Char)) :
    Except RunErr (List (Nat × BranchInfo)) :=
  args.enum.mapM (fun p => (compileSelector p.2).map (fun bi => (p.1, bi)))

/-- One iteration of the matching loop body (main.rs lines 321-333): a glob
selector either matches the short name — yielding its position and
`show_if_empty` flag — or does not; trigger selectors are never tested
against reference names. -/
def matchSelector (st : List Char) (p : Nat × BranchInfo) : Option (Nat × Bool) :=
  match p.2.kind with
  | .glob toks => if gmatch toks st then some (p.1, p.2.show_if_empty) else none
  | .refScript _ => none

/-- The selector loop over a reference short name (main.rs lines 321-339):
selectors are tested in input order and the first match wins (`break`); an
unmatched name resolves to nothing (`continue`). -/
def resolveRef (infos : List (Nat × BranchInfo)) (st : List Char) :
    Option (Nat × Bool) :=
  match infos with
  | [] => none
  | i :: rest =>
    match matchSelector st i with
    | some r => some r
    | none => resolveRef rest st

/-- The per-trigger body of the refscript loop (main.rs lines 352-370).
`triggerOut` is the observed outcome of running the external program:
`Except.error` is a spawn/read failure (the `.output()?`),
`Except.ok none` is non-UTF-8 standard output (the `String::from_utf8` whose
result is `?`-propagated), and `Except.ok (some lines)` is the decoded line
list.  Fewer than two lines produce no branch without error; otherwise the
second line is revparsed (fatal on failure) and a branch named by the first
line is produced. -/
def processTrigger (revparse : List Char → Except RunErr CommitId)
    (triggerOut : Except RunErr (Option (List (List Char)))) :
    Except RunErr (Option (Name × CommitId)) :=
  match triggerOut with
  | .error e => .error e
  | .ok none => .error RunErr.fatalErr
  | .ok (some lines) =>
    match lines with
    | l0 :: l1 :: _ => (revparse l1).map (fun oid => some (⟨l0⟩, oid))
    | _ => .ok none

/-! ### Membership builder (main.rs lines 376-411)

`mapoid_to_branches` is a `BTreeMap<Oid, HashSet<Rc<String>>>`; we model it as
an association list sorted by `CommitId` with duplicate-free name lists as
set values.  The revwalk is the external collaborator: a function from a head
and a hide callback to the walked commit list (or a propagated failure). -/

/-- The configuration a run operates under: the repository interface, the
revwalk collaborator, the current system time, the two age cutoffs (both are
`86400 * days` seconds in the code) and the resolved author filter. -/
structure RunCfg where
  repo : CommitId → Option Commit
  revwalk : CommitId → (CommitId → Option Bool) → Except RunErr (List CommitId)
  now : Nat
  refMaxAge : Nat
  commitMaxAge : Nat
  author : Option String

/-- The commit-to-branch-set map under construction. -/
abbrev Membership := List (CommitId × List Name)

/-- `BTreeMap::entry(commit)` followed by `HashSet::insert(name)` (main.rs
lines 404-409): create the entry if absent (keeping keys sorted), otherwise
add the name to the existing set. -/
def memInsert (m : Membership) (id : CommitId) (name : Name) : Membership :=
  match m with
  | [] => [(id, [name])]
  | (i, ns) :: rest =>
    if id < i then (id, [name]) :: (i, ns) :: rest
    else if id = i then (i, if ns.contains name then ns else name :: ns) :: rest
    else (i, ns) :: memInsert rest id name

/-- Record one branch's walked commits in the membership map (the
`for commit in revwalk` loop). -/
def addWalk (m : Membership) (name : Name) (cs : List CommitId) : Membership :=
  cs.foldl (fun acc c => memInsert acc c name) m

/-- One iteration of the per-branch loop (main.rs lines 376-411): check the
head against `ref_max_age` (skipping the branch when too old, panicking on a
future head), then walk with the `commit_max_age` hide callback and record
every walked commit under the branch name. -/
def processBranch (cfg : RunCfg) (m : Membership) (nb : Name × CommitId) :
    Except RunErr Membership :=
  match headTooOld cfg.repo cfg.now cfg.refMaxAge nb.2 with
  | none => .error RunErr.panicStop
  | some true => .ok m
  | some false =>
    (cfg.revwalk nb.2 (hideCallback cfg.repo cfg.now cfg.commitMaxAge)).map
      (fun cs => addWalk m nb.1 cs)

/-- Build the whole membership map from the resolved branch list. -/
def buildMembership (cfg : RunCfg) (branches : List (Name × CommitId)) :
    Except RunErr Membership :=
  branches.foldlM (processBranch cfg) []

/-! ### Change grouper (main.rs lines 413-448)

`msg_map` is a `BTreeMap<String, (Time, Vec<(Oid, HashSet)>)>`; we model it
as an association list kept sorted by its message key under the
byte-lexicographic string order. -/

/-- Strict lexicographic order on character lists — the order in which a Rust
`BTreeMap<String, _>` keeps its keys (UTF-8 byte order coincides with
code-point order). -/
def strLtB : List Char → List Char → Bool
  | [], [] => false
  | [], _ :: _ => true
  | _ :: _, [] => false
  | a :: as, b :: bs => decide (a < b) || (decide (a = b) && strLtB as bs)

/-- One change group under construction: grouping key (first message line),
canonical timestamp (committer time of the first qualifying commit processed
for the key) and the accumulated `(CommitId, branch-set)` entries in
processing order. -/
abbrev GroupMap := List (List Char × Nat × List (CommitId × List Name))

/-- `msg_map.entry(msg)` (main.rs lines 434-439): create the group with this
commit's committer time if the key is new (keeping keys sorted), otherwise
push the entry onto the existing group. -/
def msgInsert (mm : GroupMap) (msg : List Char) (time : Nat)
    (entry : CommitId × List Name) : GroupMap :=
  match mm with
  | [] => [(msg, time, [entry])]
  | (k, t, es) :: rest =>
    if strLtB msg k then (msg, time, [entry]) :: (k, t, es) :: rest
    else if msg = k then (k, t, es ++ [entry]) :: rest
    else (k, t, es) :: msgInsert rest msg time entry

/-- One iteration of the grouping loop (main.rs lines 415-441) on a
membership pair: fetch the commit (fatal on failure), skip merges (more than
one parent), skip authors rejected by `sig_matches`, re-check the commit age
(panicking on a future timestamp, skipping stale commits), then file the pair
under the first message line. -/
def groupStep (cfg : RunCfg) (mm : GroupMap) (p : CommitId × List Name) :
    Except RunErr GroupMap :=
  match cfg.repo p.1 with
  | none => .error RunErr.fatalErr
  | some c =>
    if 1 < c.parentCount then .ok mm
    else if !(sig_matches c.authorName c.authorEmail cfg.author) then .ok mm
    else
      match groupAgeCheck cfg.now cfg.commitMaxAge c with
      | none => .error RunErr.panicStop
      | some true => .ok mm
      | some false =>
        match firstLine c.message with
        | none => .ok mm
        | some msg => .ok (msgInsert mm msg c.committerTime p)

/-- Build all change groups from the membership map, iterating it in
ascending `CommitId` order (`BTreeMap` iteration). -/
def buildGroups (cfg : RunCfg) (m : Membership) : Except RunErr GroupMap :=
  m.foldlM (groupStep cfg) []

/-- A displayed group: `(timestamp, first message line, entries)` — the
element type of the vector `v` (main.rs lines 443-446). -/
abbrev Group := Nat × List Char × List (CommitId × List Name)

/-- Flatten `msg_map` into `v` (main.rs lines 443-446). -/
def buildV (mm : GroupMap) : List Group :=
  mm.map (fun e => (e.2.1, e.1, e.2.2))

/-- `v.sort_by(|y, x| y.0.cmp(&x.0))` (main.rs line 448): stable sort of the
groups by ascending timestamp, modelled by insertion sort (which is stable
and agrees with any stable sort under this total order). -/
def sortV (v : List Group) : List Group :=
  List.insertionSort (fun y x => y.1 ≤ x.1) v

/-! ### Branch order assignment (main.rs lines 450-467)

`unsorted_branches` is the union (a `HashSet`) of the branch sets surfaced in
any group entry.  Each surfaced name is paired with
`found_branches.get(name).map(|x| *x)` — an `Option<(usize, bool)>` sort key
of priority and `show_if_empty` — and, additionally, every registered name
with `show_if_empty` set is pushed with key `None`.  The vector of
`(Option<(usize, bool)>, Rc<String>)` pairs is then sorted by the derived
`Ord`, under which `None < Some(_)`, tuples compare left to right, and
`false < true`. -/

/-- The Rust sort key `Option<(usize, bool)>`. -/
abbrev BKey := Option (Nat × Bool)

/-- Strict derived order on `BKey`: `None` is smaller than every `Some`, and
pairs compare lexicographically with `false < true`. -/
def bkeyLtB : BKey → BKey → Bool
  | none, none => false
  | none, some _ => true
  | some _, none => false
  | some (i, s), some (j, t) => decide (i < j) || (decide (i = j) && (!s && t))

/-- Non-strict derived order (`le` in Rust's `Ord` sense) on the full sort
element `(Option<(usize, bool)>, Rc<String>)`. -/
def entryLe (a b : BKey × Name) : Bool :=
  bkeyLtB a.1 b.1 || (decide (a.1 = b.1) && !(strLtB b.2.toList a.2.toList))

/-- `found_branches.get(name).map(|x| *x)`: first-entry association lookup in
the registry of resolved names (a `BTreeMap`, whose keys are unique). -/
def lookupName (found : List (Name × Nat × Bool)) (n : Name) :
    Option (Nat × Bool) :=
  (found.find? (fun e => e.1 == n)).map (fun e => e.2)

/-- The keyed column list before the final projection (main.rs lines
457-466): surfaced names carry their registry key (or `None` when
unregistered), every registered `show_if_empty` name is additionally pushed
with key `None`, and the whole vector is sorted by the derived order. -/
def buildColumnsKeyed (found : List (Name × Nat × Bool)) (surfaced : List Name) :
    List (BKey × Name) :=
  List.insertionSort (fun a b => entryLe a b = true)
    (surfaced.map (fun n => (lookupName found n, n)) ++
     (found.filter (fun e => e.2.2)).map (fun e => ((none : BKey), e.1)))

/-- The final branch column order (main.rs line 467): the sorted keyed list
projected to names. -/
def buildColumns (found : List (Name × Nat × Bool)) (surfaced : List Name) :
    List Name :=
  (buildColumnsKeyed found surfaced).map (fun e => e.2)

/-- The union of branch names surfaced in any group entry
(`unsorted_branches`, main.rs lines 450-455), as a duplicate-free list. -/
def surfacedNames (v : List Group) : List Name :=
  (v.flatMap (fun g => g.2.2.flatMap (fun e => e.2))).dedup

/-- The core pipeline behind `main` after resolution: membership, groups,
sorted group vector and branch column order. -/
def runCore (cfg : RunCfg) (branches : List (Name × CommitId))
    (found : List (Name × Nat × Bool)) :
    Except RunErr (List Group × List Name) :=
  (buildMembership cfg branches).bind (fun m =>
    (buildGroups cfg m).map (fun mm =>
      (sortV (buildV mm),
       buildColumns found (surfacedNames (sortV (buildV mm))))))

/-! ### Printer (main.rs lines 86-245)

We model what `Printer::print` emits, abstracting colors and glyphs: commit
rows carry their left-to-right column cells, and branch label lines carry the
branch name.  `print_commit` runs the `git show | sha1sum` fingerprint
command once per emitted row (line 112), and shows the digest only in
variants mode for groups with more than one entry (lines 137-143). -/

/-- The printer-relevant arguments (`Args`). -/
structure PrinterArgs where
  reverse : Bool
  variants : Bool
  search : Option (List Char)
deriving DecidableEq, Repr

/-- The `Printer` state: arguments, the fixed branch column order and the
sorted group vector. -/
structure PrinterSt where
  args : PrinterArgs
  branches : List Name
  v : List Group
deriving DecidableEq, Repr

/-- One emitted commit row: timestamp, the left-to-right `(column, mark)`
cells, the commit id, whether its fingerprint digest is shown, and the
message. -/
structure CommitRow where
  time : Nat
  cells : List (Name × Bool)
  oid : CommitId
  fingerprintShown : Bool
  msg : List Char
deriving DecidableEq, Repr

/-- The `--search` highlight filter at the top of `print_commit` (lines
97-102): a group whose message does not contain the search string emits
nothing. -/
def groupPassesSearch (search : Option (List Char)) (msg : List Char) : Bool :=
  match search with
  | some h => strContains msg h
  | none => true

/-- `contained_in` (main.rs lines 104-107): the union of the branch sets of
all entries of the group. -/
def containedIn (entries : List (CommitId × List Name)) : List Name :=
  (entries.flatMap (fun e => e.2)).dedup

/-- The rows `print_commit` emits for one group: nothing when the search
filter rejects the message; otherwise one row per entry in variants mode and
one row for the first entry only (the `break`) otherwise.  Cells mark, per
column, membership in the entry's branch set (variants) or in the group-wide
union.  The digest is shown only in variants mode for groups with more than
one entry. -/
def commitRowsOfGroup (branches : List Name) (variants : Bool)
    (search : Option (List Char)) (g : Group) : List CommitRow :=
  if !(groupPassesSearch search g.2.1) then []
  else
    (if variants then g.2.2 else g.2.2.take 1).map (fun e =>
      { time := g.1
        cells := branches.map (fun b =>
          (b, if variants then e.2.contains b else (containedIn g.2.2).contains b))
        oid := e.1
        fingerprintShown := variants && decide (1 < g.2.2.length)
        msg := g.2.1 })

/-- The commit ids for which `print_commit` runs the fingerprint command
(`git show .. | sha1sum`, main.rs lines 112-119): exactly one invocation per
emitted row, before any variants check. -/
def fingerprintsComputed (branches : List Name) (variants : Bool)
    (search : Option (List Char)) (g : Group) : List CommitId :=
  (commitRowsOfGroup branches variants search g).map (fun r => r.oid)

/-- `Printer::print_commits` (main.rs lines 163-193): iterate `v` reversed
under the reverse flag, forward otherwise. -/
def displayedGroupRows (p : PrinterSt) : List Group :=
  if p.args.reverse then p.v.reverse else p.v

/-- All commit rows the printer emits, in emission order. -/
def printCommits (p : PrinterSt) : List CommitRow :=
  (displayedGroupRows p).flatMap
    (commitRowsOfGroup p.branches p.args.variants p.args.search)

/-- `Printer::print_branches` (main.rs lines 195-205): label lines are
printed in column order under the reverse flag and in reversed column order
otherwise. -/
def printBranchLabels (p : PrinterSt) : List Name :=
  if p.args.reverse then p.branches else p.branches.reverse

/-- One abstract output line of the printer. -/
inductive OutLine where
  | commitRow (r : CommitRow)
  | branchLabel (n : Name)
  | sep
deriving DecidableEq, Repr

/-- `Printer::print` (main.rs lines 232-244): labels, separator, commits
under the reverse flag; commits, separator, labels otherwise. -/
def printAll (p : PrinterSt) : List OutLine :=
  if p.args.reverse then
    (printBranchLabels p).map OutLine.branchLabel ++ [OutLine.sep] ++
      (printCommits p).map OutLine.commitRow
  else
    (printCommits p).map OutLine.commitRow ++ [OutLine.sep] ++
      (printBranchLabels p).map OutLine.branchLabel

/-- Toggling the `--reverse` flag. -/
def flipReverse (p : PrinterSt) : PrinterSt :=
  { p with args := { p.args with reverse := !p.args.reverse } }

/-! ### Reference order from the specification wording -/

/-- The column comparison written from the spec's words (§4.5), for
comparison against the code's `entryLe`: sort ascending by
`(priority, name)`, where a name with no known selector priority sorts after
all names with a known one.  Used only to state the ordering claim. -/
def specOrderLe (a b : BKey × Name) : Bool :=
  match a.1.map (fun p => p.1), b.1.map (fun p => p.1) with
  | none, none => !(strLtB b.2.toList a.2.toList)
  | none, some _ => false
  | some _, none => true
  | some i, some j =>
      decide (i < j) || (decide (i = j) && !(strLtB b.2.toList a.2.toList))

/-! ### Concrete configurations used by witnesses -/

/-- A configuration with a single commit (id 1) whose head is far older than
both cutoffs. -/
def cfgOldHead : RunCfg :=
  { repo := fun i =>
      if i = 1 then
        some { committerTime := 0, parentCount := 0, authorName := some "J",
               authorEmail := some "j@x", message := ['m'] }
      else none
    revwalk := fun _ _ => Except.ok []
    now := 100
    refMaxAge := 10
    commitMaxAge := 10
    author := none }

/-- A configuration whose only commit (id 1) has an author rejected by the
`--author` filter `"Jane"`. -/
def cfgWrongAuthor : RunCfg :=
  { repo := fun i =>
      if i = 1 then
        some { committerTime := 90, parentCount := 0, authorName := some "Bob",
               authorEmail := some "b@y", message := ['m'] }
      else none
    revwalk := fun _ _ => Except.ok []
    now := 100
    refMaxAge := 10
    commitMaxAge := 10
    author := some "Jane" }

/-- A configuration with a merge commit (id 1, two parents) and a plain
commit (id 2) that passes all grouper filters. -/
def cfgMerge : RunCfg :=
  { repo := fun i =>
      if i = 1 then
        some { committerTime := 90, parentCount := 2, authorName := some "J",
               authorEmail := some "j@x", message := ['m'] }
      else if i = 2 then
        some { committerTime := 90, parentCount := 0, authorName := some "J",
               authorEmail := some "j@x", message := ['m'] }
      else none
    revwalk := fun _ _ => Except.ok []
    now := 100
    refMaxAge := 10
    commitMaxAge := 10
    author := none }

/-! ## Order lemmas for the derived sort -/

theorem strLtB_asymm : ∀ a b, strLtB a b = true → strLtB b a = false := by
  intro a
  induction a with
  | nil => intro b h; cases b <;> simp [strLtB] at h ⊢
  | cons x xs ih =>
    intro b h
    cases b with
    | nil => simp [strLtB] at h
    | cons y ys =>
      simp [strLtB] at h ⊢
      rcases h with h | ⟨he, hr⟩
      · exact ⟨le_of_lt h, fun hyx => absurd (hyx ▸ h) (lt_irrefl x)⟩
      · subst he
        exact ⟨le_refl x, fun _ => ih ys hr⟩

theorem strLtB_trans :
    ∀ a b c, strLtB a b = true → strLtB b c = true → strLtB a c = true := by
  intro a
  induction a with
  | nil =>
    intro b c h1 h2
    cases b with
    | nil => simp [strLtB] at h1
    | cons y ys =>
      cases c with
      | nil => simp [strLtB] at h2
      | cons z zs => simp [strLtB]
  | cons x xs ih =>
    intro b c h1 h2
    cases b with
    | nil => simp [strLtB] at h1
    | cons y ys =>
      cases c with
      | nil => simp [strLtB] at h2
      | cons z zs =>
        simp [strLtB] at h1 h2 ⊢
        rcases h1 with h1 | ⟨he1, hr1⟩
        · rcases h2 with h2 | ⟨he2, hr2⟩
          · exact Or.inl (lt_trans h1 h2)
          · exact Or.inl (he2 ▸ h1)
        · subst he1
          rcases h2 with h2 | ⟨he2, hr2⟩
          · exact Or.inl h2
          · subst he2
            exact Or.inr ⟨rfl, ih ys zs hr1 hr2⟩

theorem strLtB_conn :
    ∀ a b, strLtB a b = false → strLtB b a = false → a = b := by
  intro a
  induction a with
  | nil =>
    intro b h1 _
    cases b with
    | nil => rfl
    | cons y ys => simp [strLtB] at h1
  | cons x xs ih =>
    intro b h1 h2
    cases b with
    | nil => simp [strLtB] at h2
    | cons y ys =>
      simp [strLtB] at h1 h2
      have hxy : x = y := le_antisymm h2.1 h1.1
      subst hxy
      have := ih ys (h1.2 rfl) (h2.2 rfl)
      rw [this]

theorem bkeyLtB_trans :
    ∀ a b c, bkeyLtB a b = true → bkeyLtB b c = true → bkeyLtB a c = true := by
  intro a b c h1 h2
  rcases a with _ | ⟨i, s⟩ <;> rcases b with _ | ⟨j, t⟩ <;>
    rcases c with _ | ⟨k, u⟩ <;> simp [bkeyLtB] at h1 h2 ⊢
  rcases h1 with h1 | ⟨he1, hs, ht⟩ <;> rcases h2 with h2 | ⟨he2, ht2, hu⟩
  · exact Or.inl (lt_trans h1 h2)
  · exact Or.inl (he2 ▸ h1)
  · exact Or.inl (he1 ▸ h2)
  · subst he1; subst he2; subst hs; subst hu
    simp at ht ⊢

theorem bkeyLtB_conn :
    ∀ a b, bkeyLtB a b = false → bkeyLtB b a = false → a = b := by
  intro a b h1 h2
  rcases a with _ | ⟨i, s⟩ <;> rcases b with _ | ⟨j, t⟩ <;>
    simp [bkeyLtB] at h1 h2 ⊢
  have hij : i = j := by omega
  subst hij
  simp at h1 h2
  cases s <;> cases t <;> simp_all

theorem entryLe_trans :
    ∀ a b c, entryLe a b = true → entryLe b c = true → entryLe a c = true := by
  intro a b c h1 h2
  simp [entryLe] at h1 h2 ⊢
  rcases h1 with h1 | ⟨he1, hn1⟩
  · rcases h2 with h2 | ⟨he2, hn2⟩
    · exact Or.inl (bkeyLtB_trans _ _ _ h1 h2)
    · exact Or.inl (he2 ▸ h1)
  · rcases h2 with h2 | ⟨he2, hn2⟩
    · exact Or.inl (he1 ▸ h2)
    · refine Or.inr ⟨he1.trans he2, ?_⟩
      cases hca : strLtB c.2.toList a.2.toList with
      | false => exact hca
      | true =>
        cases hbc : strLtB b.2.toList c.2.toList with
        | true => exact absurd (strLtB_trans _ _ _ hbc hca) (by simp [hn1])
        | false =>
          have hbceq := strLtB_conn _ _ hbc hn2
          rw [← hbceq] at hca
          exact absurd hca (by simp [hn1])

theorem entryLe_total : ∀ a b, entryLe a b = true ∨ entryLe b a = true := by
  intro a b
  simp [entryLe]
  cases hab : bkeyLtB a.1 b.1 with
  | true => exact Or.inl (Or.inl rfl)
  | false =>
    cases hba : bkeyLtB b.1 a.1 with
    | true => exact Or.inr (Or.inl rfl)
    | false =>
      have he := bkeyLtB_conn _ _ hab hba
      cases hs : strLtB b.2.toList a.2.toList with
      | false => exact Or.inl (Or.inr ⟨he, hs⟩)
      | true => exact Or.inr (Or.inr ⟨he.symm, strLtB_asymm _ _ hs⟩)

instance : IsTrans (BKey × Name) (fun a b => entryLe a b = true) :=
  ⟨fun a b c => entryLe_trans a b c⟩

instance : IsTotal (BKey × Name) (fun a b => entryLe a b = true) :=
  ⟨fun a b => entryLe_total a b⟩

theorem entryLe_none_first (a b : BKey × Name) (h : entryLe a b = true)
    (hb : b.1 = none) : a.1 = none := by
  cases ha : a.1 with
  | none => rfl
  | some k =>
    obtain ⟨ki, ks⟩ := k
    simp [entryLe, hb, ha, bkeyLtB] at h

/-! ## C1 — final column order -/

/-- C1 counterexample: with registry `[("a", 0, false), ("z", 1, true)]` and
the single surfaced name `"a"`, the `show_if_empty` name `"z"` enters the
sort with key `None`, and Rust's derived `Option` order places `None` FIRST;
the resulting column order is `["z", "a"]`, which violates the claimed
order (unknown-priority names after all known-priority ones). -/
theorem c1_spec_order_counterexample :
    buildColumns [("a", 0, false), ("z", 1, true)] ["a"] = ["z", "a"] ∧
    ¬ (buildColumnsKeyed [("a", 0, false), ("z", 1, true)] ["a"]).Pairwise
        (fun a b => specOrderLe a b = true) := by
  constructor
  · decide
  · decide

/-- C1 (amended): candidate branch columns are sorted ascending by the
derived order on `(Option<(priority, show_if_empty)>, name)` — ascending by
`(priority, name)` among keyed entries — but every entry whose key is
unknown (`None`) is placed BEFORE all entries with a known priority, not
after them as the spec claims. -/
theorem c1_column_order_sorted (found : List (Name × Nat × Bool))
    (surfaced : List Name) :
    (buildColumnsKeyed found surfaced).Pairwise (fun a b => entryLe a b = true) ∧
    (buildColumnsKeyed found surfaced).Pairwise
      (fun a b => b.1 = none → a.1 = none) := by
  have hs : (buildColumnsKeyed found surfaced).Pairwise
      (fun a b => entryLe a b = true) :=
    List.sorted_insertionSort (fun a b => entryLe a b = true) _
  exact ⟨hs, hs.imp (fun h hb => entryLe_none_first _ _ h hb)⟩

/-- C1 witness: the amended ordering, evaluated at a concrete registry. -/
theorem c1_column_order_sorted_witness :
    (buildColumnsKeyed [("a", 0, false), ("b", 1, true)] ["a", "b"]).Pairwise
      (fun a b => entryLe a b = true) ∧
    (buildColumnsKeyed [("a", 0, false), ("b", 1, true)] ["a", "b"]).Pairwise
      (fun a b => b.1 = none → a.1 = none) :=
  c1_column_order_sorted [("a", 0, false), ("b", 1, true)] ["a", "b"]

/-! ## C3 — columns as a duplicate-free total order -/

/-- C3 counterexample: a registered `show_if_empty` branch (`"a"`) that also
has surfaced commits is pushed a second time with a `None` key (main.rs lines
461-465 push unconditionally), so its name appears twice as a display
column. -/
theorem c3_duplicate_column_counterexample :
    buildColumns [("a", 0, true)] ["a"] = ["a", "a"] ∧
    ¬ (buildColumns [("a", 0, true)] ["a"]).Nodup := by
  constructor
  · decide
  · decide

/-- C3 (amended): every registered `show_if_empty` name is pushed
unconditionally, so the column order is duplicate-free only when no
registered `show_if_empty` name is also surfaced; under that proviso (with
the registry keys and the surfaced union duplicate-free, as the `BTreeMap`
and `HashSet` guarantee) each branch name appears at most once as a display
column. -/
theorem c3_columns_nodup (found : List (Name × Nat × Bool))
    (surfaced : List Name)
    (hnd : (found.map (fun e => e.1)).Nodup) (hs : surfaced.Nodup)
    (hdisj : ∀ e ∈ found, e.2.2 = true → e.1 ∉ surfaced) :
    (buildColumns found surfaced).Nodup := by
  have hperm : (buildColumnsKeyed found surfaced).Perm
      (surfaced.map (fun n => (lookupName found n, n)) ++
       (found.filter (fun e => e.2.2)).map (fun e => ((none : BKey), e.1))) :=
    List.perm_insertionSort _ _
  have hmap := hperm.map (fun e => e.2)
  refine hmap.nodup_iff.mpr ?_
  rw [List.map_append, List.map_map, List.map_map]
  have h1 : ((fun e : BKey × Name => e.2) ∘ fun n : Name => (lookupName found n, n)) =
      id := rfl
  have h2 : ((fun e : BKey × Name => e.2) ∘ fun e : Name × Nat × Bool =>
      ((none : BKey), e.1)) = fun e : Name × Nat × Bool => e.1 := rfl
  rw [h1, h2, List.map_id]
  rw [List.nodup_append]
  refine ⟨hs, ?_, ?_⟩
  · exact ((List.filter_sublist found).map (fun e => e.1)).nodup hnd
  · intro n hn hnf
    rcases List.mem_map.mp hnf with ⟨e, he, hen⟩
    rcases List.mem_filter.mp he with ⟨hef, hq⟩
    exact hdisj e hef hq (hen ▸ hn)

/-- C3 witness: a concrete registry and surfaced set satisfying the
hypotheses, with a duplicate-free column order. -/
theorem c3_columns_nodup_witness :
    (buildColumns [("a", 0, false), ("b", 1, true)] ["a"]).Nodup :=
  c3_columns_nodup [("a", 0, false), ("b", 1, true)] ["a"]
    (by decide) (by decide) (by decide)

/-! ## C5 — first-match-wins selector resolution -/

/-- C5: a reference short name receives the priority (input-list position)
and `show_if_empty` flag of the first matching glob selector; selectors after
the first match are never consulted (the result does not depend on them).
For the spec's example `["release/*", "!hotfix/*"]`, `release/1.0` resolves
to priority 0 without `show_if_empty` and `hotfix/9` to priority 1 with
`show_if_empty`. -/
theorem c5_first_match_wins (infos1 infos2 : List (Nat × BranchInfo))
    (sel : Nat × BranchInfo) (st : List Char) (r : Nat × Bool)
    (hm : matchSelector st sel = some r)
    (hpre : ∀ j ∈ infos1, matchSelector st j = none) :
    resolveRef (infos1 ++ sel :: infos2) st = some r ∧
    (compileSelectors ["release/*".toList, "!hotfix/*".toList]).map
        (fun infos => (resolveRef infos "release/1.0".toList,
                       resolveRef infos "hotfix/9".toList)) =
      Except.ok (some (0, false), some (1, true)) := by
  constructor
  · induction infos1 with
    | nil => simp [resolveRef, hm]
    | cons j rest ih =>
      have hj := hpre j (List.mem_cons_self _ _)
      simp [resolveRef, hj]
      exact ih (fun x hx => hpre x (List.mem_cons_of_mem _ hx))
  · decide

/-- C5 witness: the theorem applied to a singleton selector list. -/
theorem c5_first_match_wins_witness :
    resolveRef [(0, ⟨false, BranchKind.glob [GTok.star]⟩)] ['x'] =
      some (0, false) ∧
    (compileSelectors ["release/*".toList, "!hotfix/*".toList]).map
        (fun infos => (resolveRef infos "release/1.0".toList,
                       resolveRef infos "hotfix/9".toList)) =
      Except.ok (some (0, false), some (1, true)) :=
  c5_first_match_wins [] [] (0, ⟨false, BranchKind.glob [GTok.star]⟩) ['x']
    (0, false) (by decide) (by decide)

/-! ## C9 — trigger soft skip versus fatal errors -/

/-- C9: a trigger whose standard output decodes to fewer than two lines
produces no branch and no error (soft skip); non-UTF-8 trigger output is a
propagated fatal error; and a malformed glob pattern (an unterminated
character class) makes the whole selector compilation fail fatally. -/
theorem c9_trigger_and_glob_errors (rp : List Char → Except RunErr CommitId)
    (lines : List (List Char)) (hlt : lines.length < 2) :
    processTrigger rp (Except.ok (some lines)) = Except.ok none ∧
    processTrigger rp (Except.ok none) = Except.error RunErr.fatalErr ∧
    compileSelectors ["release/[".toList] = Except.error RunErr.fatalErr := by
  refine ⟨?_, rfl, by decide⟩
  match lines with
  | [] => rfl
  | [l] => rfl
  | a :: b :: rest => exact absurd hlt (by simp [List.length_cons])

/-- C9 witness: the theorem applied to an empty trigger output. -/
theorem c9_trigger_and_glob_errors_witness :
    processTrigger (fun _ => Except.ok 0) (Except.ok (some [])) =
      Except.ok none ∧
    processTrigger (fun _ => Except.ok 0) (Except.ok none) =
      Except.error RunErr.fatalErr ∧
    compileSelectors ["release/[".toList] = Except.error RunErr.fatalErr :=
  c9_trigger_and_glob_errors (fun _ => Except.ok 0) [] (by decide)

/-! ## C10 — future timestamps panic in every age check -/

/-- C10: for a commit examined by the age checks whose committer timestamp is
later than the current system time, each check — the branch-head check, the
traversal hide callback and the grouper re-check — hits
`elapsed().unwrap()` on an `Err` and panics (modelled by `none`) instead of
classifying the commit as inside the age window. -/
theorem c10_future_timestamp_panics (repo : CommitId → Option Commit)
    (now refMaxAge commitMaxAge : Nat) (id : CommitId) (c : Commit)
    (hrepo : repo id = some c) (hfuture : now < c.committerTime) :
    headTooOld repo now refMaxAge id = none ∧
    hideCallback repo now commitMaxAge id = none ∧
    groupAgeCheck now commitMaxAge c = none := by
  have hnle : ¬ (c.committerTime ≤ now) := by omega
  refine ⟨?_, ?_, ?_⟩ <;>
    simp [headTooOld, hideCallback, groupAgeCheck, hrepo, elapsedSecs, hnle]

/-- C10 witness: a commit 40 seconds in the future panics all three
checks. -/
theorem c10_future_timestamp_panics_witness :
    headTooOld
        (fun i => if i = 0 then
          some { committerTime := 50, parentCount := 0, authorName := none,
                 authorEmail := none, message := [] } else none) 10 5 0 = none ∧
    hideCallback
        (fun i => if i = 0 then
          some { committerTime := 50, parentCount := 0, authorName := none,
                 authorEmail := none, message := [] } else none) 10 7 0 = none ∧
    groupAgeCheck 10 7
        { committerTime := 50, parentCount := 0, authorName := none,
          authorEmail := none, message := [] } = none :=
  c10_future_timestamp_panics
    (fun i => if i = 0 then
      some { committerTime := 50, parentCount := 0, authorName := none,
             authorEmail := none, message := [] } else none) 10 5 7 0
    { committerTime := 50, parentCount := 0, authorName := none,
      authorEmail := none, message := [] } rfl (by decide)

/-! ## C2 — fingerprint computation versus display -/

/-- C2 counterexample: with variant mode off and a single-entry group, the
fingerprint command is still run — for the one printed row — although the
claim says no fingerprint is computed in that case. -/
theorem c2_computed_counterexample :
    fingerprintsComputed ["a"] false none (0, ['m'], [(1, ["a"])]) = [1] := by
  decide

/-- C2 (amended): `print_commit` runs the fingerprint command once per
emitted row — in particular for the first entry of every group that passes
the search filter, even with variant mode off or a single-entry group —
while the digest is DISPLAYED exactly when variant mode is on and the group
has more than one entry. -/
theorem c2_fingerprint_per_row (branches : List Name) (variants : Bool)
    (g : Group) (hne : g.2.2 ≠ []) :
    fingerprintsComputed branches variants none g ≠ [] ∧
    (commitRowsOfGroup branches variants none g).all
      (fun r => r.fingerprintShown == (variants && decide (1 < g.2.2.length))) =
      true := by
  constructor
  · rcases hes : g.2.2 with _ | ⟨x, xs⟩
    · exact absurd hes hne
    · simp [fingerprintsComputed, commitRowsOfGroup, groupPassesSearch, hes]
      cases variants <;> simp
  · rw [List.all_eq_true]
    intro r hr
    rw [commitRowsOfGroup] at hr
    simp [groupPassesSearch] at hr
    obtain ⟨e1, e2, hp⟩ := hr
    rw [← hp.2]
    simp

/-- C2 witness: a concrete single-entry group with variant mode off. -/
theorem c2_fingerprint_per_row_witness :
    fingerprintsComputed ["a"] false none (0, ['m'], [(2, ["a"])]) ≠ [] ∧
    (commitRowsOfGroup ["a"] false none (0, ['m'], [(2, ["a"])])).all
      (fun r => r.fingerprintShown ==
        (false && decide (1 < (0, ['m'], [(2, ["a"])]).2.2.length))) = true :=
  c2_fingerprint_per_row ["a"] false (0, ['m'], [(2, ["a"])]) (by decide)

/-! ## C8 — the reverse flag -/

/-- Helper: every emitted commit row carries its cells in the fixed
left-to-right column order `p.branches`, whatever the reverse flag. -/
theorem printCommits_cells (p : PrinterSt) :
    (printCommits p).all
      (fun r => r.cells.map (fun c => c.1) == p.branches) = true := by
  rw [List.all_eq_true]
  intro r hr
  rcases List.mem_flatMap.mp hr with ⟨g, hg, hrg⟩
  rw [commitRowsOfGroup] at hrg
  by_cases hps : groupPassesSearch p.args.search g.2.1
  · rw [if_neg (by simp [hps])] at hrg
    rcases List.mem_map.mp hrg with ⟨e, he, rfl⟩
    have : ((p.branches.map (fun b =>
        (b, if p.args.variants then e.2.contains b
            else (containedIn g.2.2).contains b))).map (fun c => c.1)) =
        p.branches := by
      rw [List.map_map]
      exact List.map_id p.branches
    simp only [this]
    exact beq_self_eq_true p.branches
  · rw [if_pos (by simp [hps])] at hrg
    simp at hrg

/-- Helper: toggling the reverse flag twice restores the printer state. -/
theorem flipReverse_flipReverse (p : PrinterSt) :
    flipReverse (flipReverse p) = p := by
  obtain ⟨⟨rev, var, se⟩, br, v⟩ := p
  simp [flipReverse]

/-- C8 counterexample: flipping the reverse flag does NOT reverse the
left-to-right branch column order of commit rows — with columns
`["a", "b"]` the flipped run still emits cells in order `["a", "b"]`, not
`["b", "a"]`. -/
theorem c8_columns_not_reversed_counterexample :
    ¬ ((printCommits (flipReverse
          { args := { reverse := false, variants := false, search := none }
            branches := ["a", "b"]
            v := [(0, ['m'], [(1, ["a"])])] })).map
            (fun r => r.cells.map (fun c => c.1)) =
        ((printCommits
          { args := { reverse := false, variants := false, search := none }
            branches := ["a", "b"]
            v := [(0, ['m'], [(1, ["a"])])] }).map
            (fun r => r.cells.map (fun c => c.1))).map List.reverse) := by
  decide

/-- C8 (amended): toggling the reverse flag reverses the displayed group
row order and the order in which branch label lines are printed, and
toggling twice restores the original output; the left-to-right column order
inside commit rows, however, is the same fixed `branches` list under either
flag. -/
theorem c8_reverse_round_trip (p : PrinterSt) :
    displayedGroupRows (flipReverse p) = (displayedGroupRows p).reverse ∧
    printBranchLabels (flipReverse p) = (printBranchLabels p).reverse ∧
    (printCommits p).all
      (fun r => r.cells.map (fun c => c.1) == p.branches) = true ∧
    (printCommits (flipReverse p)).all
      (fun r => r.cells.map (fun c => c.1) == p.branches) = true ∧
    printAll (flipReverse (flipReverse p)) = printAll p := by
  refine ⟨?_, ?_, printCommits_cells p, printCommits_cells (flipReverse p), ?_⟩
  · cases hr : p.args.reverse <;>
      simp [displayedGroupRows, flipReverse, hr]
  · cases hr : p.args.reverse <;>
      simp [printBranchLabels, flipReverse, hr]
  · rw [flipReverse_flipReverse]

/-- C8 witness: the amended reverse behavior at a concrete printer state. -/
theorem c8_reverse_round_trip_witness :
    displayedGroupRows (flipReverse
      { args := { reverse := false, variants := true, search := none }
        branches := ["a", "b"]
        v := [(0, ['m'], [(1, ["a"])]), (1, ['n'], [(2, ["b"])])] }) =
      (displayedGroupRows
        { args := { reverse := false, variants := true, search := none }
          branches := ["a", "b"]
          v := [(0, ['m'], [(1, ["a"])]), (1, ['n'], [(2, ["b"])])] }).reverse ∧
    printBranchLabels (flipReverse
      { args := { reverse := false, variants := true, search := none }
        branches := ["a", "b"]
        v := [(0, ['m'], [(1, ["a"])]), (1, ['n'], [(2, ["b"])])] }) =
      (printBranchLabels
        { args := { reverse := false, variants := true, search := none }
          branches := ["a", "b"]
          v := [(0, ['m'], [(1, ["a"])]), (1, ['n'], [(2, ["b"])])] }).reverse ∧
    (printCommits
      { args := { reverse := false, variants := true, search := none }
        branches := ["a", "b"]
        v := [(0, ['m'], [(1, ["a"])]), (1, ['n'], [(2, ["b"])])] }).all
      (fun r => r.cells.map (fun c => c.1) == ["a", "b"]) = true ∧
    (printCommits (flipReverse
      { args := { reverse := false, variants := true, search := none }
        branches := ["a", "b"]
        v := [(0, ['m'], [(1, ["a"])]), (1, ['n'], [(2, ["b"])])] })).all
      (fun r => r.cells.map (fun c => c.1) == ["a", "b"]) = true ∧
    printAll (flipReverse (flipReverse
      { args := { reverse := false, variants := true, search := none }
        branches := ["a", "b"]
        v := [(0, ['m'], [(1, ["a"])]), (1, ['n'], [(2, ["b"])])] })) =
      printAll
        { args := { reverse := false, variants := true, search := none }
          branches := ["a", "b"]
          v := [(0, ['m'], [(1, ["a"])]), (1, ['n'], [(2, ["b"])])] } :=
  c8_reverse_round_trip
    { args := { reverse := false, variants := true, search := none }
      branches := ["a", "b"]
      v := [(0, ['m'], [(1, ["a"])]), (1, ['n'], [(2, ["b"])])] }

/-! ## Fold invariants shared by the membership and grouping claims -/

theorem except_ok_bind {α β : Type} (a : α) (f : α → Except RunErr β) :
    (Except.ok a >>= f) = f a := rfl

theorem except_error_bind {α β : Type} (e : RunErr) (f : α → Except RunErr β) :
    ((Except.error e : Except RunErr α) >>= f) = Except.error e := rfl

theorem foldlM_except_inv {α β : Type} (f : β → α → Except RunErr β)
    (P : β → Prop) :
    ∀ (l : List α) (b b' : β),
      (∀ x ∈ l, ∀ c c', P c → f c x = Except.ok c' → P c') →
      List.foldlM f b l = Except.ok b' → P b → P b' := by
  intro l
  induction l with
  | nil =>
    intro b b' _ h hP
    rw [List.foldlM_nil] at h
    cases h
    exact hP
  | cons a l ih =>
    intro b b' hstep h hP
    rw [List.foldlM_cons] at h
    cases hf : f b a with
    | error e => rw [hf, except_error_bind] at h; cases h
    | ok c =>
      rw [hf, except_ok_bind] at h
      exact ih c b' (fun x hx => hstep x (List.mem_cons_of_mem _ hx)) h
        (hstep a (List.mem_cons_self _ _) b c hP hf)

/-- Every name found in a set of `memInsert m id nm` was already in a set of
`m` or is the inserted name. -/
theorem memInsert_names (m : Membership) (id : CommitId) (nm x : Name)
    (q : CommitId × List Name) (hq : q ∈ memInsert m id nm) (hx : x ∈ q.2) :
    (∃ q' ∈ m, x ∈ q'.2) ∨ x = nm := by
  induction m with
  | nil =>
    simp [memInsert] at hq
    rw [hq] at hx
    simp at hx
    exact Or.inr hx
  | cons p rest ih =>
    obtain ⟨i, ns⟩ := p
    rw [memInsert] at hq
    by_cases h1 : id < i
    · rw [if_pos h1] at hq
      rcases List.mem_cons.mp hq with hq | hq
      · rw [hq] at hx; simp at hx; exact Or.inr hx
      · rcases List.mem_cons.mp hq with hq | hq
        · exact Or.inl ⟨(i, ns), List.mem_cons_self _ _, hq ▸ hx⟩
        · exact Or.inl ⟨q, List.mem_cons_of_mem _ hq, hx⟩
    · rw [if_neg h1] at hq
      by_cases h2 : id = i
      · rw [if_pos h2] at hq
        rcases List.mem_cons.mp hq with hq | hq
        · rw [hq] at hx
          by_cases hcn : ns.contains nm
          · rw [if_pos hcn] at hx
            exact Or.inl ⟨(i, ns), List.mem_cons_self _ _, hx⟩
          · rw [if_neg hcn] at hx
            rcases List.mem_cons.mp hx with hx | hx
            · exact Or.inr hx
            · exact Or.inl ⟨(i, ns), List.mem_cons_self _ _, hx⟩
        · exact Or.inl ⟨q, List.mem_cons_of_mem _ hq, hx⟩
      · rw [if_neg h2] at hq
        rcases List.mem_cons.mp hq with hq | hq
        · exact Or.inl ⟨(i, ns), List.mem_cons_self _ _, hq ▸ hx⟩
        · rcases ih hq with ⟨q', hq', hx'⟩ | hx'
          · exact Or.inl ⟨q', List.mem_cons_of_mem _ hq', hx'⟩
          · exact Or.inr hx'

/-- `addWalk` only ever adds the walked branch's name: a different name
absent from every set stays absent. -/
theorem addWalk_names (nm x : Name) (hne : x ≠ nm) :
    ∀ (cs : List CommitId) (m : Membership),
      (∀ q ∈ m, x ∉ q.2) → ∀ q ∈ addWalk m nm cs, x ∉ q.2 := by
  intro cs
  induction cs with
  | nil => intro m hm q hq; exact hm q hq
  | cons c cs ih =>
    intro m hm q hq
    rw [addWalk, List.foldl_cons] at hq
    refine ih (memInsert m c nm) ?_ q hq
    intro q' hq' hx'
    rcases memInsert_names m c nm x q' hq' hx' with ⟨q'', hq'', hx''⟩ | hx''
    · exact hm q'' hq'' hx''
    · exact hne hx''

/-- `processBranch` preserves the absence of a name whose every
equally-named branch is skipped by the head age check. -/
theorem processBranch_preserves (cfg : RunCfg) (x : Name)
    (m m' : Membership) (nb : Name × CommitId)
    (hskip : nb.1 = x →
      headTooOld cfg.repo cfg.now cfg.refMaxAge nb.2 = some true)
    (hP : ∀ q ∈ m, x ∉ q.2)
    (h : processBranch cfg m nb = Except.ok m') :
    ∀ q ∈ m', x ∉ q.2 := by
  rw [processBranch] at h
  cases hh : headTooOld cfg.repo cfg.now cfg.refMaxAge nb.2 with
  | none => rw [hh] at h; cases h
  | some b =>
    cases b with
    | true =>
      rw [hh] at h
      cases h
      exact hP
    | false =>
      by_cases hx : nb.1 = x
      · rw [hskip hx] at hh; cases hh
      · rw [hh] at h
        cases hw : cfg.revwalk nb.2 (hideCallback cfg.repo cfg.now cfg.commitMaxAge) with
        | error e => rw [hw] at h; cases h
        | ok cs =>
          rw [hw] at h
          cases h
          exact addWalk_names nb.1 x (fun he => hx he.symm) cs m hP

/-- Every entry of a group of `msgInsert mm msg t p` was already an entry of
a group of `mm` or is the inserted pair. -/
theorem msgInsert_entries (mm : GroupMap) (msg : List Char) (t : Nat)
    (p e : CommitId × List Name)
    (g : List Char × Nat × List (CommitId × List Name))
    (hg : g ∈ msgInsert mm msg t p) (he : e ∈ g.2.2) :
    (∃ g' ∈ mm, e ∈ g'.2.2) ∨ e = p := by
  induction mm with
  | nil =>
    simp [msgInsert] at hg
    rw [hg] at he
    simp at he
    exact Or.inr he
  | cons q rest ih =>
    obtain ⟨k, t', es⟩ := q
    rw [msgInsert] at hg
    by_cases h1 : strLtB msg k
    · rw [if_pos h1] at hg
      rcases List.mem_cons.mp hg with hg | hg
      · rw [hg] at he; simp at he; exact Or.inr he
      · rcases List.mem_cons.mp hg with hg | hg
        · exact Or.inl ⟨(k, t', es), List.mem_cons_self _ _, hg ▸ he⟩
        · exact Or.inl ⟨g, List.mem_cons_of_mem _ hg, he⟩
    · rw [if_neg (by simp [h1])] at hg
      by_cases h2 : msg = k
      · rw [if_pos h2] at hg
        rcases List.mem_cons.mp hg with hg | hg
        · rw [hg] at he
          simp at he
          rcases he with he | he
          · exact Or.inl ⟨(k, t', es), List.mem_cons_self _ _, he⟩
          · exact Or.inr he
        · exact Or.inl ⟨g, List.mem_cons_of_mem _ hg, he⟩
      · rw [if_neg h2] at hg
        rcases List.mem_cons.mp hg with hg | hg
        · exact Or.inl ⟨(k, t', es), List.mem_cons_self _ _, hg ▸ he⟩
        · rcases ih hg with ⟨g', hg', he'⟩ | he'
          · exact Or.inl ⟨g', List.mem_cons_of_mem _ hg', he'⟩
          · exact Or.inr he'

/-- Soundness of the grouper: every entry of every produced group is a
membership pair that passed the merge, author and age filters. -/
theorem buildGroups_entries (cfg : RunCfg) (m : Membership) (mm : GroupMap)
    (hg : buildGroups cfg m = Except.ok mm) :
    ∀ g ∈ mm, ∀ e ∈ g.2.2,
      e ∈ m ∧ ∃ c, cfg.repo e.1 = some c ∧ c.parentCount ≤ 1 ∧
        sig_matches c.authorName c.authorEmail cfg.author = true ∧
        groupAgeCheck cfg.now cfg.commitMaxAge c = some false := by
  refine foldlM_except_inv (groupStep cfg)
    (fun acc => ∀ g ∈ acc, ∀ e ∈ g.2.2,
      e ∈ m ∧ ∃ c, cfg.repo e.1 = some c ∧ c.parentCount ≤ 1 ∧
        sig_matches c.authorName c.authorEmail cfg.author = true ∧
        groupAgeCheck cfg.now cfg.commitMaxAge c = some false)
    m [] mm ?_ hg (by simp)
  intro x hx acc acc' hacc hstep g hg' e he
  rw [groupStep] at hstep
  cases hrepo : cfg.repo x.1 with
  | none =>
    simp only [hrepo] at hstep
    cases hstep
  | some c =>
    simp only [hrepo] at hstep
    by_cases hpar : 1 < c.parentCount
    · rw [if_pos hpar] at hstep
      cases hstep
      exact hacc g hg' e he
    · rw [if_neg hpar] at hstep
      cases hsig : sig_matches c.authorName c.authorEmail cfg.author with
      | false =>
        simp only [hsig, Bool.not_false, if_true] at hstep
        cases hstep
        exact hacc g hg' e he
      | true =>
        simp only [hsig, Bool.not_true, Bool.false_eq_true, if_false] at hstep
        cases hage : groupAgeCheck cfg.now cfg.commitMaxAge c with
        | none =>
          simp only [hage] at hstep
          cases hstep
        | some stale =>
          cases stale with
          | true =>
            simp only [hage] at hstep
            cases hstep
            exact hacc g hg' e he
          | false =>
            simp only [hage] at hstep
            cases hfl : firstLine c.message with
            | none =>
              simp only [hfl] at hstep
              cases hstep
              exact hacc g hg' e he
            | some msg =>
              simp only [hfl] at hstep
              cases hstep
              rcases msgInsert_entries acc msg c.committerTime x e g hg' he with
                ⟨g', hg'', he'⟩ | he'
              · exact hacc g' hg'' e he'
              · rw [he']
                exact ⟨hx, c, hrepo, by omega, hsig, hage⟩

/-- A `BTreeMap`-style registry with duplicate-free keys looks up any of its
own entries to that entry's value. -/
theorem lookupName_mem_unique (found : List (Name × Nat × Bool))
    (hnd : (found.map (fun e => e.1)).Nodup) (e : Name × Nat × Bool)
    (he : e ∈ found) : lookupName found e.1 = some e.2 := by
  induction found with
  | nil => cases he
  | cons p rest ih =>
    rw [List.map_cons, List.nodup_cons] at hnd
    rcases List.mem_cons.mp he with he | he
    · rw [he, lookupName, List.find?_cons_of_pos _ (by simp)]
      rfl
    · by_cases hpe : p.1 == e.1
      · exfalso
        refine hnd.1 ?_
        rw [show p.1 = e.1 from by simpa using hpe]
        exact List.mem_map.mpr ⟨e, he, rfl⟩
      · rw [lookupName, List.find?_cons_of_neg rest (by simpa using hpe)]
        exact ih hnd.2 he

/-- A name in the final column order was surfaced or belongs to a registered
`show_if_empty` branch. -/
theorem mem_buildColumns (found : List (Name × Nat × Bool))
    (surfaced : List Name) (n : Name) (h : n ∈ buildColumns found surfaced) :
    n ∈ surfaced ∨ ∃ e ∈ found, e.2.2 = true ∧ e.1 = n := by
  rw [buildColumns, buildColumnsKeyed] at h
  have hperm := (List.perm_insertionSort (fun a b => entryLe a b = true)
      (surfaced.map (fun n => (lookupName found n, n)) ++
       (found.filter (fun e => e.2.2)).map
         (fun e => ((none : BKey), e.1)))).map (fun e : BKey × Name => e.2)
  rw [hperm.mem_iff] at h
  rw [List.map_append, List.map_map, List.map_map] at h
  rcases List.mem_append.mp h with h | h
  · rcases List.mem_map.mp h with ⟨a, ha, hae⟩
    exact Or.inl (hae ▸ ha)
  · rcases List.mem_map.mp h with ⟨e, he, hee⟩
    rcases List.mem_filter.mp he with ⟨hef, hq⟩
    exact Or.inr ⟨e, hef, hq, hee⟩

theorem except_bind_ok {α β : Type} (a : α) (f : α → Except RunErr β) :
    (Except.ok a : Except RunErr α).bind f = f a := rfl

theorem except_map_error {α β : Type} (f : α → β) (e : RunErr) :
    Except.map f (Except.error e : Except RunErr α) = Except.error e := rfl

theorem except_map_ok {α β : Type} (f : α → β) (a : α) :
    Except.map f (Except.ok a : Except RunErr α) = Except.ok (f a) := rfl

/-! ## C6 — author filter -/

/-- C6: `sig_matches` succeeds exactly when the filter string is absent, or
is a (case-sensitive) substring of the author's name or of the author's
email; and a commit whose author signature fails the configured filter
appears in no change group. -/
theorem c6_author_filter (cfg : RunCfg) (m : Membership) (mm : GroupMap)
    (id : CommitId) (c : Commit) (nm em arg : Option String)
    (hrepo : cfg.repo id = some c)
    (hsig : sig_matches c.authorName c.authorEmail cfg.author = false)
    (hg : buildGroups cfg m = Except.ok mm) :
    (sig_matches nm em arg = true ↔
      (arg = none ∨ ∃ s, arg = some s ∧
        ((∃ n, nm = some n ∧ s.toList <:+: n.toList) ∨
         (∃ e, em = some e ∧ s.toList <:+: e.toList)))) ∧
    ∀ g ∈ mm, ∀ e ∈ g.2.2, e.1 ≠ id := by
  constructor
  · cases arg with
    | none => simp [sig_matches]
    | some s =>
      cases nm <;> cases em <;> simp [sig_matches, strContains]
  · intro g hg' e he hid
    rcases (buildGroups_entries cfg m mm hg g hg' e he).2 with ⟨c', hc', _, hsg, _⟩
    rw [hid, hrepo] at hc'
    injection hc' with hcc
    rw [← hcc] at hsg
    rw [hsg] at hsig
    cases hsig

/-- C6 witness: commit 1 of `cfgWrongAuthor` fails the filter `"Jane"` and
the grouper produces no groups from its membership pair; the substring
characterizations hold at the spec's examples. -/
theorem c6_author_filter_witness :
    (sig_matches (some "Jane Doe") (some "jd@x") (some "Jane") = true ↔
      (some "Jane" = none ∨ ∃ s, (some "Jane" : Option String) = some s ∧
        ((∃ n, (some "Jane Doe" : Option String) = some n ∧
            s.toList <:+: n.toList) ∨
         (∃ e, (some "jd@x" : Option String) = some e ∧
            s.toList <:+: e.toList)))) ∧
    ∀ g ∈ ([] : GroupMap), ∀ e ∈ g.2.2, e.1 ≠ 1 :=
  c6_author_filter cfgWrongAuthor [(1, ["a"])] [] 1
    { committerTime := 90, parentCount := 0, authorName := some "Bob",
      authorEmail := some "b@y", message := ['m'] }
    (some "Jane Doe") (some "jd@x") (some "Jane")
    (by decide) (by decide) (by decide)

/-! ## C7 — merge commits never grouped -/

/-- C7: a commit with more than one parent is skipped by the grouper: no
change group entry references it. -/
theorem c7_no_merges (cfg : RunCfg) (m : Membership) (mm : GroupMap)
    (id : CommitId) (c : Commit)
    (hrepo : cfg.repo id = some c) (hpar : 1 < c.parentCount)
    (hg : buildGroups cfg m = Except.ok mm) :
    ∀ g ∈ mm, ∀ e ∈ g.2.2, e.1 ≠ id := by
  intro g hg' e he hid
  rcases (buildGroups_entries cfg m mm hg g hg' e he).2 with ⟨c', hc', hp', _, _⟩
  rw [hid, hrepo] at hc'
  injection hc' with hcc
  rw [← hcc] at hp'
  omega

/-- C7 witness: with the merge commit 1 and the plain commit 2 of `cfgMerge`
both in the membership map, the only group entry produced is commit 2, and
the theorem applied to that entry shows its id cannot be the merge's. -/
theorem c7_no_merges_witness :
    ((((2 : CommitId), ["a"]) : CommitId × List Name).1 = 1) = False :=
  eq_false
    (c7_no_merges cfgMerge [(1, ["a"]), (2, ["a"])]
      [(['m'], 90, [(2, ["a"])])] 1
      { committerTime := 90, parentCount := 2, authorName := some "J",
        authorEmail := some "j@x", message := ['m'] }
      (by decide) (by decide) (by decide)
      (['m'], 90, [(2, ["a"])]) (by decide) (2, ["a"]) (by decide))

/-! ## C4 — stale branch heads contribute nothing -/

/-- C4: if every tracked branch carrying a given name has a head commit
older than the reference cutoff (so its traversal is skipped), then no
membership set ever contains that name, and the name appears in the final
branch column order only if its registered selector set `show_if_empty`. -/
theorem c4_stale_head (cfg : RunCfg) (branches : List (Name × CommitId))
    (found : List (Name × Nat × Bool)) (name : Name) (pri : Nat) (sie : Bool)
    (m : Membership) (v : List Group) (cols : List Name)
    (hall : ∀ p ∈ branches, p.1 = name →
      headTooOld cfg.repo cfg.now cfg.refMaxAge p.2 = some true)
    (hnd : (found.map (fun e => e.1)).Nodup)
    (hfound : lookupName found name = some (pri, sie))
    (hm : buildMembership cfg branches = Except.ok m)
    (hrun : runCore cfg branches found = Except.ok (v, cols)) :
    (∀ q ∈ m, name ∉ q.2) ∧ (name ∈ cols → sie = true) := by
  have hmem : ∀ q ∈ m, name ∉ q.2 := by
    refine foldlM_except_inv (processBranch cfg)
      (fun mem => ∀ q ∈ mem, name ∉ q.2) branches [] m ?_ hm (by simp)
    intro x hx c c' hP hstep
    exact processBranch_preserves cfg name c c' x (fun h1 => hall x hx h1) hP hstep
  refine ⟨hmem, ?_⟩
  rw [runCore, hm, except_bind_ok] at hrun
  cases hmmok : buildGroups cfg m with
  | error e => rw [hmmok, except_map_error] at hrun; cases hrun
  | ok mm =>
    rw [hmmok, except_map_ok] at hrun
    injection hrun with hpair
    rw [Prod.mk.injEq] at hpair
    obtain ⟨hv, hc⟩ := hpair
    have hnsurf : name ∉ surfacedNames v := by
      intro hn
      rw [← hv, surfacedNames] at hn
      rcases List.mem_flatMap.mp (List.mem_dedup.mp hn) with ⟨g, hgv, hge⟩
      rcases List.mem_flatMap.mp hge with ⟨e, hee, hne⟩
      rw [sortV] at hgv
      rw [(List.perm_insertionSort _ _).mem_iff] at hgv
      rcases List.mem_map.mp hgv with ⟨gm, hgm', hggm⟩
      have he' : e ∈ gm.2.2 := by rw [← hggm] at hee; exact hee
      exact hmem e (buildGroups_entries cfg m mm hmmok gm hgm' e he').1 hne
    intro hcol
    rw [← hc] at hcol
    rcases mem_buildColumns found (surfacedNames (sortV (buildV mm))) name hcol with
      hs | ⟨e, hef, hq, hen⟩
    · rw [hv] at hs
      exact absurd hs hnsurf
    · have hlk := lookupName_mem_unique found hnd e hef
      rw [hen, hfound] at hlk
      injection hlk with hpe
      rw [← hpe] at hq
      exact hq

/-- C4 witness: the single branch `"old"` of `cfgOldHead` is skipped by the
head age check; the run produces no groups and shows `"old"` only through
its `show_if_empty` flag. -/
theorem c4_stale_head_witness :
    (∀ q ∈ ([] : Membership), "old" ∉ q.2) ∧
    ("old" ∈ ["old"] → true = true) :=
  c4_stale_head cfgOldHead [("old", 1)] [("old", 0, true)] "old" 0 true
    [] [] ["old"] (by decide) (by decide) (by decide) (by decide) (by decide)

end GitContains
